import Mathlib

/-!
Verification of the team-balancing and role-assignment engine of the
lineups backend (file backend/main.py).

The two core functions are embedded shallowly:

* `generate_balanced_teams` (the partitioner, main.py lines 368-412):
  scores every player with the supplied attribute weights, sorts the
  scored list descending (a stable sort, as in Python), performs the
  randomized adjacent-swap pass for close scores, then greedily assigns
  players to the two teams subject to the half-size cap.  The random
  draws of the swap pass are passed in as an explicit list of booleans
  (one boolean per draw of random.random() < 0.3); the cluster labels
  produced by the KMeans call are passed in as an explicit list that the
  body binds and never reads, exactly as in the source.  Python floats
  are modelled as rationals.  A missing weight key raises KeyError in
  the source, which is modelled with an Except error value.

* `generate_positions` (the role and position assigner, main.py lines
  414-491): picks the goalkeeper by the lexicographic minimum of
  (attack + defense + athleticism, -defense) as Python min does (first
  minimum wins), filters the outfield players by uid inequality with
  the goalkeeper, computes the zone count and the per-zone capacities,
  runs the outlier pass, the midfield pass, the zone-by-zone fill pass
  and the failsafe pass, and finally lays every zone out on the pitch.
  Python min on an empty sequence raises ValueError, which is modelled
  by returning none for the empty team.

* `auto_create_teams` (the /autocreate endpoint, main.py lines 495-529,
  database writes omitted): guards the roster size with an HTTP 400
  error and pipes the partitioner into the assigner for both teams.
-/

namespace Lineups

/-- Player record as sent to the backend (pydantic model Player,
main.py lines 138-143): an optional integer uid, a display name and the
three integer attributes. -/
structure Player where
  uid : Option Int
  name : String
  attack : Int
  defense : Int
  athleticism : Int
deriving DecidableEq

/-- One entry of the list returned by generate_positions: the uid and
name of a player together with a normalized pitch coordinate. -/
structure Placement where
  uid : Option Int
  name : String
  x : ℚ
  y : ℚ
deriving DecidableEq

/-- Attribute weight mapping as read by generate_balanced_teams.  The
source indexes a Python dict with the keys "attack", "defense" and
"athleticism"; an absent key is modelled by none. -/
structure Weights where
  attack : Option ℚ
  defense : Option ℚ
  athleticism : Option ℚ
deriving DecidableEq

/-- Exceptions the embedded code can raise: KeyError (dict lookup with
a missing key), ValueError (min of an empty sequence) and
fastapi.HTTPException with a status code. -/
inductive PyError where
  | keyError : String → PyError
  | valueError : PyError
  | httpException : Nat → PyError
deriving DecidableEq

/-- Weighted score of a player, main.py line 389:
attack * w_attack + defense * w_defense + athleticism * w_athleticism. -/
def score (wa wd wath : ℚ) (p : Player) : ℚ :=
  (p.attack : ℚ) * wa + (p.defense : ℚ) * wd + (p.athleticism : ℚ) * wath

/-- Reads the three weight entries in the order the source evaluates
them (main.py line 378); the first missing key raises KeyError. -/
def resolveWeights (w : Weights) : Except PyError (ℚ × ℚ × ℚ) :=
  match w.attack with
  | none => .error (.keyError "attack")
  | some wa =>
    match w.defense with
    | none => .error (.keyError "defense")
    | some wd =>
      match w.athleticism with
      | none => .error (.keyError "athleticism")
      | some wath => .ok (wa, wd, wath)

/-- Stable insertion of one element into a list that is already sorted
by descending key: the element goes in front of the first strictly
smaller key, so that equal keys keep their original relative order,
exactly as Python list.sort with reverse=True behaves. -/
def insertDescBy {α : Type} (key : α → ℚ) (x : α) : List α → List α
  | [] => [x]
  | y :: ys => if key y ≤ key x then x :: y :: ys else y :: insertDescBy key x ys

/-- Stable sort by descending key (model of Python sorted/list.sort
with reverse=True). -/
def sortDescBy {α : Type} (key : α → ℚ) : List α → List α
  | [] => []
  | x :: xs => insertDescBy key x (sortDescBy key xs)

/-- Closeness test of the randomized swap pass, main.py line 396: the
two adjacent scores differ by less than ten percent of the first one. -/
def closeScores (x y : Player × ℚ) : Bool :=
  decide (|x.2 - y.2| < (1 / 10) * x.2)

/-- Body of the adjacent-swap loop, main.py lines 395-398, carrying the
element currently at index i.  When two adjacent entries are close, one
boolean is drawn from the coin list (the model of random.random() < 0.3)
and decides the swap; after a swap the loop continues comparing the
element that moved down.  An exhausted coin list means no swap. -/
def swapAux {α : Type} (close : α → α → Bool) : α → List α → List Bool → List α
  | a, [], _ => [a]
  | a, b :: rest, coins =>
    if close a b then
      match coins with
      | c :: cs =>
        if c then b :: swapAux close a rest cs else a :: swapAux close b rest cs
      | [] => a :: swapAux close b rest []
    else a :: swapAux close b rest coins

/-- The complete adjacent-swap pass over the sorted scored list. -/
def swapPass {α : Type} (close : α → α → Bool) (l : List α) (coins : List Bool) : List α :=
  match l with
  | [] => []
  | a :: rest => swapAux close a rest coins

/-- Greedy balanced assignment loop, main.py lines 404-410: walk the
scored list, sending each player to team a while team a is below the
half-size cap and either its strength sum trails team b or team b is
already full, and to team b otherwise. -/
def assignLoop (half : Nat) :
    List (Player × ℚ) → List Player → List Player → ℚ → ℚ → List Player × List Player
  | [], ta, tb, _, _ => (ta, tb)
  | (p, s) :: rest, ta, tb, sa, sb =>
    if ta.length < half ∧ (sa ≤ sb ∨ half ≤ tb.length) then
      assignLoop half rest (ta ++ [p]) tb (sa + s) sb
    else
      assignLoop half rest ta (tb ++ [p]) sa (sb + s)

/-- Team partitioner, main.py lines 368-412.  The coins argument feeds
the randomized swap pass; the clusters argument stands for the label
array returned by the KMeans fit_predict call of lines 383-385, which
the source computes and never reads afterwards. -/
def generate_balanced_teams (players : List Player) (weights : Weights)
    (coins : List Bool) (clusters : List Nat) :
    Except PyError (List Player × List Player) :=
  if players.length < 2 then .ok ([], [])
  else
    match resolveWeights weights with
    | .error e => .error e
    | .ok (wa, wd, wath) =>
      let _labels := clusters
      let scored := players.map (fun p => (p, score wa wd wath p))
      let sorted := sortDescBy (fun x => x.2) scored
      let shuffled := swapPass closeScores sorted coins
      .ok (assignLoop (players.length / 2) shuffled [] [] 0 0)

/-- The same computation with the KMeans clustering step removed, the
variant the specification describes as behaviourally identical. -/
def generate_balanced_teams_no_clustering (players : List Player) (weights : Weights)
    (coins : List Bool) : Except PyError (List Player × List Player) :=
  if players.length < 2 then .ok ([], [])
  else
    match resolveWeights weights with
    | .error e => .error e
    | .ok (wa, wd, wath) =>
      let scored := players.map (fun p => (p, score wa wd wath p))
      let sorted := sortDescBy (fun x => x.2) scored
      let shuffled := swapPass closeScores sorted coins
      .ok (assignLoop (players.length / 2) shuffled [] [] 0 0)

/-- Goalkeeper selection key, main.py line 422: lowest overall total,
ties broken towards the higher defense (hence the negated defense). -/
def gkKey (p : Player) : Int × Int :=
  (p.attack + p.defense + p.athleticism, -p.defense)

/-- Strict lexicographic comparison of the goalkeeper keys, as Python
compares tuples. -/
def lexLtb (a b : Int × Int) : Bool :=
  decide (a.1 < b.1) || (decide (a.1 = b.1) && decide (a.2 < b.2))

/-- Python min with a key function: scan the list and replace the
current best only on a strictly smaller key, so the first minimum
wins. -/
def minBy (f : Player → Int × Int) : Player → List Player → Player
  | best, [] => best
  | best, p :: ps => if lexLtb (f p) (f best) then minBy f p ps else minBy f best ps

/-- Zone count, main.py line 430: two zones (no midfield) when the team
has fewer than six players, three zones otherwise.  The argument is the
full team size including the goalkeeper. -/
def num_zones (num_players : Nat) : Nat :=
  if num_players < 6 then 2 else 3

/-- Per-zone capacity, main.py lines 435-437: the even share of the
outfield players plus one extra slot for the first zones in order. -/
def zone_limits (base extra zone : Nat) : Nat :=
  base + if zone < extra then 1 else 0

/-- Mutable zone state of the assignment passes: the three zone lists
(defense, midfield, attack) and the assigned uid list. -/
structure ZState where
  z0 : List Player
  z1 : List Player
  z2 : List Player
  assigned : List (Option Int)
deriving DecidableEq

/-- Zone list selected by a zone index, as zones[zone] in the source. -/
def ZState.zone (s : ZState) : Nat → List Player
  | 0 => s.z0
  | 1 => s.z1
  | _ => s.z2

/-- Appends a player to one zone and records its uid as assigned. -/
def ZState.push (s : ZState) : Nat → Player → ZState
  | 0, p => { s with z0 := s.z0 ++ [p], assigned := s.assigned ++ [p.uid] }
  | 1, p => { s with z1 := s.z1 ++ [p], assigned := s.assigned ++ [p.uid] }
  | _, p => { s with z2 := s.z2 ++ [p], assigned := s.assigned ++ [p.uid] }

/-- Concatenation of the three zone lists of a state, in zone order. -/
def ZState.zcat (s : ZState) : List Player :=
  s.z0 ++ s.z1 ++ s.z2

/-- Outlier placement step, main.py lines 450-457: a player whose
attack/defense gap exceeds 3 and who is not yet assigned goes to the
attack zone (index 2) or the defense zone (index 0) while that zone has
free capacity.  Note that the source uses zone index 2 here even in the
two-zone configuration. -/
def outlierStep (lim : Nat → Nat) (s : ZState) (p : Player) : ZState :=
  if 3 < |p.attack - p.defense| ∧ p.uid ∉ s.assigned then
    if p.defense < p.attack ∧ (s.zone 2).length < lim 2 then s.push 2 p
    else if p.attack < p.defense ∧ (s.zone 0).length < lim 0 then s.push 0 p
    else s
  else s

/-- Midfield priority step, main.py lines 460-463: fill the midfield
zone (index 1) with unassigned players up to its capacity. -/
def midfieldStep (lim : Nat → Nat) (s : ZState) (p : Player) : ZState :=
  if p.uid ∉ s.assigned ∧ (s.zone 1).length < lim 1 then s.push 1 p
  else s

/-- Inner while loop of the even-distribution pass, main.py lines
468-471: pop players off the remaining list into one zone while it is
below its capacity. -/
def fillZone (lim : Nat → Nat) (zone : Nat) : ZState → List Player → ZState × List Player
  | s, [] => (s, [])
  | s, p :: rest =>
    if (s.zone zone).length < lim zone then fillZone lim zone (s.push zone p) rest
    else (s, p :: rest)

/-- Even-distribution pass over the zones in zone order, main.py lines
467-471. -/
def fillZones (lim : Nat → Nat) (nz : Nat) (s : ZState) (remaining : List Player) :
    ZState × List Player :=
  (List.range nz).foldl (fun acc zone => fillZone lim zone acc.1 acc.2) (s, remaining)

/-- Failsafe step, main.py lines 474-479: put a still unassigned player
into the first zone with spare capacity, if any. -/
def failsafeStep (lim : Nat → Nat) (nz : Nat) (s : ZState) (p : Player) : ZState :=
  match (List.range nz).find? (fun zone => (s.zone zone).length < lim zone) with
  | some zone => s.push zone p
  | none => s

/-- Python round to two decimal places, modelled as rounding to the
nearest multiple of one hundredth. -/
def round2 (q : ℚ) : ℚ :=
  ((round (100 * q) : ℤ) : ℚ) / 100

/-- Coordinate layout of one zone, main.py lines 482-489: the row
height comes from the zone index and the zone count, and the players of
the zone are spread symmetrically around the pitch center with spacing
0.4 / max(k - 1, 1). -/
def layoutZone (nz zone : Nat) (ps : List Player) : List Placement :=
  ps.enum.map (fun ip =>
    { uid := ip.2.uid, name := ip.2.name,
      x := round2 (1 / 2 + ((ip.1 : ℚ) - ((ps.length : ℚ) - 1) / 2) *
        ((2 / 5) / ((max (ps.length - 1) 1 : Nat) : ℚ))),
      y := round2 (1 - ((zone : ℚ) + 1) / ((nz : ℚ) + 1)) })

/-- Zone assignment of the outfield players, main.py lines 427-479:
filter out the goalkeeper by uid, then run the outlier pass on the
players sorted by descending attack/defense gap, the midfield pass on
the players sorted by descending athleticism + (attack + defense) / 2,
the even-distribution pass and the failsafe pass. -/
def assignZones (team : List Player) (gk : Player) : ZState :=
  let outfield := team.filter (fun p => decide (p.uid ≠ gk.uid))
  let nz := num_zones team.length
  let base := (team.length - 1) / nz
  let extra := (team.length - 1) % nz
  let lim := zone_limits base extra
  let sorted_outfield := sortDescBy (fun p => ((p.attack - p.defense).natAbs : ℚ)) outfield
  let midfield_priority :=
    sortDescBy (fun p => (p.athleticism : ℚ) + ((p.attack : ℚ) + (p.defense : ℚ)) / 2) outfield
  let s1 := sorted_outfield.foldl (outlierStep lim) ⟨[], [], [], []⟩
  let s2 := midfield_priority.foldl (midfieldStep lim) s1
  let remaining := outfield.filter (fun p => decide (p.uid ∉ s2.assigned))
  let fr := fillZones lim nz s2 remaining
  fr.2.foldl (failsafeStep lim nz) fr.1

/-- Role and position assigner, main.py lines 414-491.  The goalkeeper
is placed at (0.5, 1.0) unrounded; every zone is laid out in the order
defense, midfield, attack (the zones dict holds all three keys in both
configurations).  An empty team makes Python min raise ValueError,
modelled by none. -/
def generate_positions : List Player → Option (List Placement)
  | [] => none
  | t :: ts =>
    let gk := minBy gkKey t ts
    let nz := num_zones (t :: ts).length
    let s := assignZones (t :: ts) gk
    some ({ uid := gk.uid, name := gk.name, x := 1 / 2, y := 1 } ::
      (layoutZone nz 0 s.z0 ++ layoutZone nz 1 s.z1 ++ layoutZone nz 2 s.z2))

/-- The /autocreate endpoint, main.py lines 495-529, with the database
writes omitted: requests with fewer than two players are rejected with
HTTP status 400 before the partitioner runs. -/
def auto_create_teams (players : List Player) (weights : Weights)
    (coins : List Bool) (clusters : List Nat) :
    Except PyError (List Placement × List Placement) :=
  if players.length < 2 then .error (.httpException 400)
  else
    match generate_balanced_teams players weights coins clusters with
    | .error e => .error e
    | .ok (ta, tb) =>
      match generate_positions ta, generate_positions tb with
      | some pa, some pb => .ok (pa, pb)
      | _, _ => .error .valueError

end Lineups

namespace Lineups

/-! Concrete fixtures used by the closed witness theorems. -/

/-- A strong player fixture. -/
def pStrong : Player := ⟨some 1, "strong", 5, 5, 5⟩

/-- A weak player fixture. -/
def pWeak : Player := ⟨some 2, "weak", 1, 1, 1⟩

/-- A weight mapping with all three entries present and equal to one. -/
def wAll1 : Weights := ⟨some 1, some 1, some 1⟩

/-- First guest fixture without a uid, as the frontend can submit. -/
def guestA : Player := ⟨none, "guest a", 5, 5, 5⟩

/-- Second guest fixture without a uid. -/
def guestB : Player := ⟨none, "guest b", 1, 1, 1⟩

/-- A six-player team of identical players with distinct uids. -/
def team6 : List Player :=
  [⟨some 1, "a", 5, 5, 5⟩, ⟨some 2, "b", 5, 5, 5⟩, ⟨some 3, "c", 5, 5, 5⟩,
   ⟨some 4, "d", 5, 5, 5⟩, ⟨some 5, "e", 5, 5, 5⟩, ⟨some 6, "f", 5, 5, 5⟩]

/-- Builds the placement of one player at the given coordinates. -/
def mkPlacement (p : Player) (x y : ℚ) : Placement :=
  { uid := p.uid, name := p.name, x := x, y := y }

/-- Non-strict lexicographic order on goalkeeper keys. -/
def lexLe (a b : Int × Int) : Prop :=
  a.1 < b.1 ∨ (a.1 = b.1 ∧ a.2 ≤ b.2)

/-- Decidable equality for Except values, used by the concrete
evaluation theorems. -/
instance exceptDecEq {e a : Type} [DecidableEq e] [DecidableEq a] : DecidableEq (Except e a) :=
  fun x y =>
  match x, y with
  | .error u, .error v =>
    if h : u = v then .isTrue (by rw [h]) else .isFalse (fun hc => by cases hc; exact h rfl)
  | .ok u, .ok v =>
    if h : u = v then .isTrue (by rw [h]) else .isFalse (fun hc => by cases hc; exact h rfl)
  | .error _, .ok _ => .isFalse (fun hc => by cases hc)
  | .ok _, .error _ => .isFalse (fun hc => by cases hc)

/-! Permutation lemmas for the partitioner. -/

/-- Stable descending insertion only reorders: the result is a
permutation of the element consed on the list. -/
theorem insertDescBy_perm {α : Type} (key : α → ℚ) (x : α) (l : List α) :
    (insertDescBy key x l).Perm (x :: l) := by
  induction l with
  | nil => exact List.Perm.refl _
  | cons y ys ih =>
    rw [insertDescBy]
    split
    · exact List.Perm.refl _
    · exact (ih.cons y).trans (List.Perm.swap x y ys)

/-- The stable descending sort is a permutation of its input. -/
theorem sortDescBy_perm {α : Type} (key : α → ℚ) (l : List α) :
    (sortDescBy key l).Perm l := by
  induction l with
  | nil => exact List.Perm.refl _
  | cons x xs ih => exact (insertDescBy_perm key x (sortDescBy key xs)).trans (ih.cons x)

/-- The adjacent-swap loop body only reorders its input. -/
theorem swapAux_perm {α : Type} (close : α → α → Bool) :
    ∀ (l : List α) (a : α) (coins : List Bool), (swapAux close a l coins).Perm (a :: l) := by
  intro l
  induction l with
  | nil => intro a coins; exact List.Perm.refl _
  | cons b rest ih =>
    intro a coins
    cases hc : close a b with
    | false =>
      simp only [swapAux, hc, Bool.false_eq_true, if_false]
      exact (ih b coins).cons a
    | true =>
      cases coins with
      | nil =>
        simp only [swapAux, hc, if_true]
        exact (ih b []).cons a
      | cons c cs =>
        cases c with
        | false =>
          simp only [swapAux, hc, if_true, Bool.false_eq_true, if_false]
          exact (ih b cs).cons a
        | true =>
          simp only [swapAux, hc, if_true]
          exact ((ih a cs).cons b).trans (List.Perm.swap a b rest)

/-- The complete adjacent-swap pass only reorders its input. -/
theorem swapPass_perm {α : Type} (close : α → α → Bool) (l : List α) (coins : List Bool) :
    (swapPass close l coins).Perm l := by
  cases l with
  | nil => exact List.Perm.refl _
  | cons a rest => exact swapAux_perm close rest a coins

/-- The greedy assignment loop distributes exactly the incoming players
over the two teams: the concatenation of the results is a permutation
of the accumulated teams followed by the incoming players. -/
theorem assignLoop_perm (half : Nat) :
    ∀ (l : List (Player × ℚ)) (ta tb : List Player) (sa sb : ℚ),
      ((assignLoop half l ta tb sa sb).1 ++ (assignLoop half l ta tb sa sb).2).Perm
        ((ta ++ tb) ++ l.map Prod.fst) := by
  intro l
  induction l with
  | nil => intro ta tb sa sb; simp [assignLoop]
  | cons x rest ih =>
    intro ta tb sa sb
    obtain ⟨p, s⟩ := x
    rw [assignLoop]
    split
    · refine (ih (ta ++ [p]) tb (sa + s) sb).trans ?_
      have e1 : ((ta ++ [p]) ++ tb) ++ rest.map Prod.fst = ta ++ p :: (tb ++ rest.map Prod.fst) := by
        simp
      have e2 : (ta ++ tb) ++ ((p, s) :: rest).map Prod.fst =
          (ta ++ tb) ++ p :: rest.map Prod.fst := by simp
      rw [e1, e2, List.append_assoc]
      exact List.Perm.append_left ta List.perm_middle.symm
    · refine (ih ta (tb ++ [p]) sa (sb + s)).trans ?_
      have e1 : (ta ++ (tb ++ [p])) ++ rest.map Prod.fst =
          (ta ++ tb) ++ p :: rest.map Prod.fst := by simp
      rw [e1]
      simp

/-- Size invariant of the greedy assignment loop: team a never exceeds
the half-size cap, team b exceeds it only once team a is full, and no
player is gained or lost. -/
theorem assignLoop_sizes (half : Nat) :
    ∀ (l : List (Player × ℚ)) (ta tb : List Player) (sa sb : ℚ),
      ta.length ≤ half → (tb.length ≤ half ∨ ta.length = half) →
      (assignLoop half l ta tb sa sb).1.length ≤ half ∧
      ((assignLoop half l ta tb sa sb).2.length ≤ half ∨
        (assignLoop half l ta tb sa sb).1.length = half) ∧
      (assignLoop half l ta tb sa sb).1.length + (assignLoop half l ta tb sa sb).2.length =
        ta.length + tb.length + l.length := by
  intro l
  induction l with
  | nil =>
    intro ta tb sa sb h1 h2
    exact ⟨h1, h2, by simp [assignLoop]⟩
  | cons x rest ih =>
    intro ta tb sa sb h1 h2
    obtain ⟨p, s⟩ := x
    rw [assignLoop]
    split
    case isTrue h =>
      obtain ⟨hlt, _⟩ := h
      have hl : (ta ++ [p]).length = ta.length + 1 := by simp
      have H := ih (ta ++ [p]) tb (sa + s) sb (by omega)
        (by rcases h2 with h2 | h2
            · exact Or.inl h2
            · exact absurd h2 (by omega))
      refine ⟨H.1, H.2.1, ?_⟩
      have hr := H.2.2
      rw [hl] at hr
      simp only [List.length_cons]
      omega
    case isFalse h =>
      have hl : (tb ++ [p]).length = tb.length + 1 := by simp
      have hside2 : (tb ++ [p]).length ≤ half ∨ ta.length = half := by
        by_cases hta : ta.length < half
        · have hg : ¬ (sa ≤ sb ∨ half ≤ tb.length) := fun hor => h ⟨hta, hor⟩
          have htb : ¬ half ≤ tb.length := fun hle => hg (Or.inr hle)
          exact Or.inl (by omega)
        · exact Or.inr (by omega)
      have H := ih ta (tb ++ [p]) sa (sb + s) h1 hside2
      refine ⟨H.1, H.2.1, ?_⟩
      have hr := H.2.2
      rw [hl] at hr
      simp only [List.length_cons]
      omega

end Lineups

namespace Lineups

/-- Helper: with all three weight entries present, resolveWeights
returns them. -/
theorem resolveWeights_ok {w : Weights} {wa wd wath : ℚ}
    (ha : w.attack = some wa) (hd : w.defense = some wd) (hh : w.athleticism = some wath) :
    resolveWeights w = .ok (wa, wd, wath) := by
  rw [resolveWeights, ha, hd, hh]

/-- C2: for every roster with at least two players and every weight
mapping that has entries for attack, defense and athleticism, the
partitioner succeeds and the concatenation of the two returned teams is
a permutation of the input roster, whatever the random swap draws and
cluster labels are: no player is duplicated or lost. -/
theorem C2_partition_preserves_roster
    (players : List Player) (weights : Weights) (coins : List Bool) (clusters : List Nat)
    (wa wd wath : ℚ) (h2 : 2 ≤ players.length)
    (ha : weights.attack = some wa) (hd : weights.defense = some wd)
    (hh : weights.athleticism = some wath) :
    ∃ ta tb, generate_balanced_teams players weights coins clusters = .ok (ta, tb) ∧
      (ta ++ tb).Perm players := by
  rw [generate_balanced_teams, if_neg (by omega), resolveWeights_ok ha hd hh]
  refine ⟨_, _, rfl, ?_⟩
  refine (assignLoop_perm (players.length / 2) _ [] [] 0 0).trans ?_
  have hperm :
      ((swapPass closeScores
          (sortDescBy (fun x => x.2) (players.map (fun p => (p, score wa wd wath p)))) coins).map
        Prod.fst).Perm
        ((players.map (fun p => (p, score wa wd wath p))).map Prod.fst) :=
    ((swapPass_perm closeScores _ coins).trans (sortDescBy_perm _ _)).map Prod.fst
  have hid : (players.map (fun p => (p, score wa wd wath p))).map Prod.fst = players := by
    simp [Function.comp_def]
  rw [hid] at hperm
  simpa using hperm

/-- C2 witness: the theorem applied to a concrete two-player roster. -/
theorem C2_witness :
    ∃ ta tb, generate_balanced_teams [pStrong, pWeak] wAll1 [] [] = .ok (ta, tb) ∧
      (ta ++ tb).Perm [pStrong, pWeak] :=
  C2_partition_preserves_roster [pStrong, pWeak] wAll1 [] [] 1 1 1
    (by decide) rfl rfl rfl

/-- Helper: the reduced form of a successful partitioner run. -/
theorem generate_balanced_teams_ok_eq
    (players : List Player) (weights : Weights) (coins : List Bool) (clusters : List Nat)
    (wa wd wath : ℚ) (h2 : ¬ players.length < 2)
    (hw : resolveWeights weights = .ok (wa, wd, wath)) :
    generate_balanced_teams players weights coins clusters =
      .ok (assignLoop (players.length / 2)
        (swapPass closeScores
          (sortDescBy (fun x => x.2) (players.map (fun p => (p, score wa wd wath p)))) coins)
        [] [] 0 0) := by
  unfold generate_balanced_teams
  rw [if_neg h2, hw]

/-- C3: whenever the partitioner returns a pair of teams for a roster
of at least two players, the team sizes differ by at most one,
regardless of scores, random swap draws and cluster labels. -/
theorem C3_team_sizes_differ_by_at_most_one
    (players : List Player) (weights : Weights) (coins : List Bool) (clusters : List Nat)
    (ta tb : List Player) (h2 : 2 ≤ players.length)
    (h : generate_balanced_teams players weights coins clusters = .ok (ta, tb)) :
    ((ta.length : ℤ) - (tb.length : ℤ)).natAbs ≤ 1 := by
  have hsmall : ¬ players.length < 2 := by omega
  cases hw : resolveWeights weights with
  | error e =>
    have herr : generate_balanced_teams players weights coins clusters = .error e := by
      unfold generate_balanced_teams
      rw [if_neg hsmall, hw]
    rw [herr] at h
    cases h
  | ok tup =>
    obtain ⟨wa, wd, wath⟩ := tup
    have hmatch :=
      generate_balanced_teams_ok_eq players weights coins clusters wa wd wath hsmall hw
    rw [hmatch] at h
    have hok := Except.ok.inj h
    set l := swapPass closeScores
      (sortDescBy (fun x => x.2) (players.map (fun p => (p, score wa wd wath p)))) coins with hl
    have hlen : l.length = players.length := by
      have hp : l.Perm (players.map (fun p => (p, score wa wd wath p))) :=
        (swapPass_perm closeScores _ coins).trans (sortDescBy_perm _ _)
      simpa using hp.length_eq
    have H := assignLoop_sizes (players.length / 2) l [] [] 0 0 (by simp) (Or.inl (by simp))
    rw [hok] at H
    dsimp only at H
    obtain ⟨Ha, Hor, Hsum⟩ := H
    simp only [List.length_nil] at Hsum
    omega

/-- C3 witness: the theorem applied to a concrete two-player roster,
for which the partitioner returns one player per team. -/
theorem C3_witness :
    ((([pStrong] : List Player).length : ℤ) - (([pWeak] : List Player).length : ℤ)).natAbs ≤ 1 :=
  C3_team_sizes_differ_by_at_most_one [pStrong, pWeak] wAll1 [] [] [pStrong] [pWeak]
    (by decide)
    (by norm_num [generate_balanced_teams, resolveWeights, wAll1, score, sortDescBy,
      insertDescBy, swapPass, swapAux, closeScores, assignLoop, pStrong, pWeak])

/-- C5 counterexample: on a one-player roster the partitioner does not
signal any error; it returns the pair of empty teams, so the claim that
it fails for fewer than two players is false as stated. -/
theorem C5_counterexample :
    generate_balanced_teams [⟨some 7, "solo", 4, 4, 4⟩] wAll1 [] [] = .ok ([], []) := by decide

/-- C5 amended: for fewer than two players the partitioner itself
returns the pair of empty teams without an error, while the
/autocreate endpoint rejects such requests with HTTP status 400 before
the partitioner runs. -/
theorem C5_amended_small_roster
    (players : List Player) (weights : Weights) (coins : List Bool) (clusters : List Nat)
    (h : players.length < 2) :
    generate_balanced_teams players weights coins clusters = .ok ([], []) ∧
    auto_create_teams players weights coins clusters = .error (.httpException 400) := by
  constructor
  · unfold generate_balanced_teams
    rw [if_pos h]
  · unfold auto_create_teams
    rw [if_pos h]

/-- C5 witness: the amended statement applied to the empty roster. -/
theorem C5_witness :
    generate_balanced_teams [] ⟨none, none, none⟩ [] [] = .ok ([], []) ∧
    auto_create_teams [] ⟨none, none, none⟩ [] [] = .error (.httpException 400) :=
  C5_amended_small_roster [] ⟨none, none, none⟩ [] [] (by decide)

/-- C6 counterexample: a weight mapping with a negative attack weight
is accepted without any error; the partitioner returns a pair of teams,
so the claim that negative weights fail with InvalidWeightsError is
false as stated. -/
theorem C6_counterexample :
    generate_balanced_teams [pStrong, pWeak] ⟨some (-1), some 1, some 1⟩ [] [] =
      .ok ([pStrong], [pWeak]) := by
  norm_num [generate_balanced_teams, resolveWeights, score, sortDescBy,
    insertDescBy, swapPass, swapAux, closeScores, assignLoop, pStrong, pWeak]

/-- C6 amended: on a roster of at least two players, a weight mapping
missing one of the attack, defense or athleticism entries makes the
partitioner fail with a KeyError (the exception of the raw dict access,
not a dedicated InvalidWeightsError); negative weight values are not
validated at all. -/
theorem C6_amended_missing_key_raises
    (players : List Player) (weights : Weights) (coins : List Bool) (clusters : List Nat)
    (h2 : 2 ≤ players.length)
    (hmiss : weights.attack = none ∨ weights.defense = none ∨ weights.athleticism = none) :
    ∃ k, generate_balanced_teams players weights coins clusters = .error (.keyError k) := by
  have hsmall : ¬ players.length < 2 := by omega
  have herr : ∀ e, resolveWeights weights = .error e →
      generate_balanced_teams players weights coins clusters = .error e := by
    intro e he
    unfold generate_balanced_teams
    rw [if_neg hsmall, he]
  rcases hmiss with h | h | h
  · refine ⟨"attack", herr _ ?_⟩
    unfold resolveWeights
    rw [h]
  · cases ha : weights.attack with
    | none =>
      refine ⟨"attack", herr _ ?_⟩
      unfold resolveWeights
      rw [ha]
    | some wa =>
      refine ⟨"defense", herr _ ?_⟩
      unfold resolveWeights
      rw [ha, h]
  · cases ha : weights.attack with
    | none =>
      refine ⟨"attack", herr _ ?_⟩
      unfold resolveWeights
      rw [ha]
    | some wa =>
      cases hd : weights.defense with
      | none =>
        refine ⟨"defense", herr _ ?_⟩
        unfold resolveWeights
        rw [ha, hd]
      | some wd =>
        refine ⟨"athleticism", herr _ ?_⟩
        unfold resolveWeights
        rw [ha, hd, h]

/-- C6 witness: the amended statement applied to a concrete roster with
the attack weight missing. -/
theorem C6_witness :
    ∃ k, generate_balanced_teams [pStrong, pWeak] ⟨none, some 1, some 1⟩ [] [] =
      .error (.keyError k) :=
  C6_amended_missing_key_raises [pStrong, pWeak] ⟨none, some 1, some 1⟩ [] []
    (by decide) (Or.inl rfl)

/-- C10: the partitioner never reads the cluster labels of the KMeans
step; its result is identical to the same computation with the
clustering step removed, for every roster, weight mapping, random draw
list and label list. -/
theorem C10_clustering_has_no_effect
    (players : List Player) (weights : Weights) (coins : List Bool) (clusters : List Nat) :
    generate_balanced_teams players weights coins clusters =
      generate_balanced_teams_no_clustering players weights coins := rfl

end Lineups

namespace Lineups

/-- The lexicographic order is reflexive. -/
theorem lexLe_refl (a : Int × Int) : lexLe a a := Or.inr ⟨rfl, le_refl _⟩

/-- The lexicographic order is transitive. -/
theorem lexLe_trans {a b c : Int × Int} (h1 : lexLe a b) (h2 : lexLe b c) : lexLe a c := by
  obtain ⟨a1, a2⟩ := a
  obtain ⟨b1, b2⟩ := b
  obtain ⟨c1, c2⟩ := c
  unfold lexLe at h1 h2 ⊢
  dsimp only at h1 h2 ⊢
  omega

/-- A true strict comparison implies the non-strict order. -/
theorem lexLe_of_lexLtb_true {a b : Int × Int} (h : lexLtb a b = true) : lexLe a b := by
  obtain ⟨a1, a2⟩ := a
  obtain ⟨b1, b2⟩ := b
  unfold lexLtb at h
  unfold lexLe
  simp only [Bool.or_eq_true, Bool.and_eq_true, decide_eq_true_eq] at h
  dsimp only at h ⊢
  omega

/-- A false strict comparison implies the reversed non-strict order. -/
theorem lexLe_of_lexLtb_false {a b : Int × Int} (h : lexLtb a b = false) : lexLe b a := by
  obtain ⟨a1, a2⟩ := a
  obtain ⟨b1, b2⟩ := b
  unfold lexLtb at h
  unfold lexLe
  simp only [Bool.or_eq_false_iff, Bool.and_eq_false_iff, decide_eq_false_iff_not] at h
  dsimp only at h ⊢
  omega

/-- The Python min scan returns an element of the candidate list. -/
theorem minBy_mem (f : Player → Int × Int) :
    ∀ (l : List Player) (best : Player), minBy f best l ∈ best :: l := by
  intro l
  induction l with
  | nil => intro best; exact List.mem_singleton.mpr rfl
  | cons p ps ih =>
    intro best
    rw [minBy]
    split
    · have := ih p
      simp only [List.mem_cons] at this ⊢
      tauto
    · have := ih best
      simp only [List.mem_cons] at this ⊢
      tauto

/-- The Python min scan returns a minimum of the candidate list for the
lexicographic order. -/
theorem minBy_le (f : Player → Int × Int) :
    ∀ (l : List Player) (best : Player) (x : Player), x ∈ best :: l →
      lexLe (f (minBy f best l)) (f x) := by
  intro l
  induction l with
  | nil =>
    intro best x hx
    rw [List.mem_singleton] at hx
    subst hx
    exact lexLe_refl _
  | cons p ps ih =>
    intro best x hx
    rw [minBy]
    split
    case isTrue hlt =>
      rcases List.mem_cons.mp hx with heq | hx2
      · rw [heq]
        exact lexLe_trans (ih p p (List.mem_cons_self p ps)) (lexLe_of_lexLtb_true hlt)
      · exact ih p x hx2
    case isFalse hge =>
      have hfalse : lexLtb (f p) (f best) = false := by
        cases h : lexLtb (f p) (f best) with
        | false => rfl
        | true => exact absurd h hge
      rcases List.mem_cons.mp hx with heq | hx2
      · rw [heq]
        exact ih best best (List.mem_cons_self best ps)
      · rcases List.mem_cons.mp hx2 with heq | hx3
        · rw [heq]
          exact lexLe_trans (ih best best (List.mem_cons_self best ps))
            (lexLe_of_lexLtb_false hfalse)
        · exact ih best x (List.mem_cons_of_mem best hx3)

end Lineups

namespace Lineups

/-- C7: for every non-empty team, the role assigner succeeds, its first
placement is the goalkeeper at exactly (0.5, 1.0), and the chosen
goalkeeper is a team member with minimal attack + defense + athleticism,
ties resolved towards the higher defense. -/
theorem C7_goalkeeper_minimal (t : Player) (ts : List Player) :
    ∃ gk ps, generate_positions (t :: ts) = some ps ∧
      ps.head? = some { uid := gk.uid, name := gk.name, x := 1 / 2, y := 1 } ∧
      gk ∈ t :: ts ∧
      ∀ p ∈ t :: ts,
        gk.attack + gk.defense + gk.athleticism ≤ p.attack + p.defense + p.athleticism ∧
        (p.attack + p.defense + p.athleticism = gk.attack + gk.defense + gk.athleticism →
          p.defense ≤ gk.defense) := by
  refine ⟨minBy gkKey t ts, _, rfl, rfl, minBy_mem gkKey ts t, ?_⟩
  intro p hp
  have h := minBy_le gkKey ts t p hp
  set g := minBy gkKey t ts with hg
  unfold lexLe at h
  unfold gkKey at h
  dsimp only at h
  omega

/-- C7 witness: the theorem instantiated at a concrete two-player team. -/
theorem C7_witness :
    ∃ gk ps, generate_positions (pStrong :: [pWeak]) = some ps ∧
      ps.head? = some { uid := gk.uid, name := gk.name, x := 1 / 2, y := 1 } ∧
      gk ∈ pStrong :: [pWeak] ∧
      ∀ p ∈ pStrong :: [pWeak],
        gk.attack + gk.defense + gk.athleticism ≤ p.attack + p.defense + p.athleticism ∧
        (p.attack + p.defense + p.athleticism = gk.attack + gk.defense + gk.athleticism →
          p.defense ≤ gk.defense) :=
  C7_goalkeeper_minimal pStrong [pWeak]

/-- Helper: the zone assignment of a one-player team is empty, because
the goalkeeper is filtered out of the outfield list by its own uid. -/
theorem assignZones_single (p : Player) : assignZones [p] p = ⟨[], [], [], []⟩ := by
  unfold assignZones
  have hout : [p].filter (fun q => decide (q.uid ≠ p.uid)) = [] := by simp
  rw [hout]
  rfl

/-- C4 counterexample: on the empty team the assigner does not return
normally; Python min raises ValueError on an empty sequence, modelled
here by the none result. -/
theorem C4_counterexample : generate_positions ([] : List Player) = none := rfl

/-- Helper: a one-player team yields exactly one placement, the player
as goalkeeper at (0.5, 1.0). -/
theorem generate_positions_single (p : Player) :
    generate_positions [p] = some [{ uid := p.uid, name := p.name, x := 1 / 2, y := 1 }] := by
  show some _ = _
  rw [show minBy gkKey p [] = p from rfl] at *
  rw [assignZones_single p]
  rfl

/-- C4 amended: the empty team makes the assigner raise (ValueError
from min on an empty sequence), while a one-player team is handled
without error and yields exactly one placement: that player as
goalkeeper at (0.5, 1.0). -/
theorem C4_amended_edge_cases :
    generate_positions ([] : List Player) = none ∧
    ∀ p : Player, generate_positions [p] =
      some [{ uid := p.uid, name := p.name, x := 1 / 2, y := 1 }] :=
  ⟨rfl, generate_positions_single⟩

/-- C1 failing input: a two-player team whose uids are both absent
(both none, as for guests).  The outfield filter removes every player
sharing the goalkeeper uid, so the assigner returns a single placement
for a two-player team: one player is silently dropped, violating the
cardinality invariant the claim states and the docstring of
generate_positions promises. -/
theorem C1_duplicate_uid_drops_player :
    (generate_positions [guestA, guestB]).map List.length = some 1 ∧
    [guestA, guestB].length = 2 := ⟨rfl, rfl⟩

end Lineups

namespace Lineups

/-- Rounding to two decimals stays inside the unit interval. -/
theorem round2_mem_unit {q : ℚ} (h0 : 0 ≤ q) (h1 : q ≤ 1) :
    0 ≤ round2 q ∧ round2 q ≤ 1 := by
  unfold round2
  have hlow : (0 : ℤ) ≤ round (100 * q) := by
    rw [round_eq]
    refine Int.floor_nonneg.mpr ?_
    linarith
  have hhigh : round (100 * q) ≤ 100 := by
    rw [round_eq]
    have hmono : ⌊100 * q + 1 / 2⌋ ≤ ⌊(201 : ℚ) / 2⌋ := Int.floor_mono (by linarith)
    have hval : ⌊(201 : ℚ) / 2⌋ = 100 := by
      rw [Int.floor_eq_iff]
      norm_num
    omega
  constructor
  · refine div_nonneg ?_ (by norm_num)
    exact_mod_cast hlow
  · rw [div_le_one (by norm_num)]
    exact_mod_cast hhigh

/-- The raw horizontal coordinate of the zone layout always lies
between 0.3 and 0.7: the offset of slot i among k players is at most
(k - 1) / 2 slots times the spacing 0.4 / max(k - 1, 1). -/
theorem x_raw_bounds (i k : Nat) (hik : i < k) :
    (3 / 10 : ℚ) ≤
      1 / 2 + ((i : ℚ) - ((k : ℚ) - 1) / 2) * ((2 / 5) / ((max (k - 1) 1 : Nat) : ℚ)) ∧
    1 / 2 + ((i : ℚ) - ((k : ℚ) - 1) / 2) * ((2 / 5) / ((max (k - 1) 1 : Nat) : ℚ)) ≤ 7 / 10 := by
  have hk1 : 1 ≤ k := Nat.one_le_of_lt (Nat.lt_of_le_of_lt (Nat.zero_le i) hik)
  have hm1 : (1 : ℚ) ≤ ((max (k - 1) 1 : Nat) : ℚ) := by
    exact_mod_cast Nat.le_max_right (k - 1) 1
  have hmk : ((k : ℚ) - 1) ≤ ((max (k - 1) 1 : Nat) : ℚ) := by
    have hle : (k - 1 : Nat) ≤ max (k - 1) 1 := Nat.le_max_left _ _
    have hcast : ((k - 1 : Nat) : ℚ) = (k : ℚ) - 1 := by
      push_cast [Nat.cast_sub hk1]
      ring
    rw [← hcast]
    exact_mod_cast hle
  have hi0 : (0 : ℚ) ≤ (i : ℚ) := Nat.cast_nonneg i
  have hik2 : (i : ℚ) ≤ (k : ℚ) - 1 := by
    have hik3 : ((i : ℚ) + 1) ≤ (k : ℚ) := by exact_mod_cast hik
    linarith
  set m : ℚ := ((max (k - 1) 1 : Nat) : ℚ) with hm
  set t : ℚ := (i : ℚ) - ((k : ℚ) - 1) / 2 with ht
  set d : ℚ := (2 / 5) / m with hd
  have hm0 : (0 : ℚ) < m := by linarith
  have hd0 : (0 : ℚ) ≤ d := by positivity
  have hmd : (m / 2) * d = 1 / 5 := by
    rw [hd]
    field_simp
    ring
  have ht1 : t ≤ ((k : ℚ) - 1) / 2 := by rw [ht]; linarith
  have ht2 : -(((k : ℚ) - 1) / 2) ≤ t := by rw [ht]; linarith
  have hub : t * d ≤ 1 / 5 := by
    have h1 : t * d ≤ (((k : ℚ) - 1) / 2) * d := mul_le_mul_of_nonneg_right ht1 hd0
    have h2 : (((k : ℚ) - 1) / 2) * d ≤ (m / 2) * d :=
      mul_le_mul_of_nonneg_right (by linarith) hd0
    linarith
  have hlb : -(1 / 5 : ℚ) ≤ t * d := by
    have h1 : (-(((k : ℚ) - 1) / 2)) * d ≤ t * d := mul_le_mul_of_nonneg_right ht2 hd0
    have h2 : (-(m / 2)) * d ≤ (-(((k : ℚ) - 1) / 2)) * d :=
      mul_le_mul_of_nonneg_right (by linarith) hd0
    have h3 : (-(m / 2)) * d = -(1 / 5 : ℚ) := by
      have := hmd
      nlinarith [hmd]
    linarith
  constructor <;> linarith

/-- The raw row height of a zone lies inside the unit interval for the
zone indices 0, 1, 2 and zone counts 2 and 3 used by the source. -/
theorem y_raw_bounds (nz zone : Nat) (hz : zone ≤ 2) (hnz : 2 ≤ nz) :
    0 ≤ 1 - ((zone : ℚ) + 1) / ((nz : ℚ) + 1) ∧
    1 - ((zone : ℚ) + 1) / ((nz : ℚ) + 1) ≤ 1 := by
  have h1 : (0 : ℚ) < (nz : ℚ) + 1 := by positivity
  have hzc : (zone : ℚ) ≤ 2 := by exact_mod_cast hz
  have hnzc : (2 : ℚ) ≤ (nz : ℚ) := by exact_mod_cast hnz
  have h2 : ((zone : ℚ) + 1) / ((nz : ℚ) + 1) ≤ 1 := by
    rw [div_le_one h1]
    linarith
  have h3 : 0 ≤ ((zone : ℚ) + 1) / ((nz : ℚ) + 1) := by positivity
  constructor <;> linarith

/-- Decomposition of membership in a laid-out zone: every placement
comes from a slot index below the zone size, with the coordinates of
the layout formula. -/
theorem layoutZone_mem {nz zone : Nat} {ps : List Player} {pl : Placement}
    (h : pl ∈ layoutZone nz zone ps) :
    ∃ (i : Nat) (p : Player), i < ps.length ∧
      pl = mkPlacement p
        (round2 (1 / 2 + ((i : ℚ) - ((ps.length : ℚ) - 1) / 2) *
          ((2 / 5) / ((max (ps.length - 1) 1 : Nat) : ℚ))))
        (round2 (1 - ((zone : ℚ) + 1) / ((nz : ℚ) + 1))) := by
  unfold layoutZone at h
  rw [List.mem_map] at h
  obtain ⟨ip, hip, heq⟩ := h
  exact ⟨ip.1, ip.2, List.fst_lt_of_mem_enum hip, heq.symm⟩

/-- Every placement of a laid-out zone has coordinates in the unit
square, for the zone indices and zone counts the source uses. -/
theorem layoutZone_coord_bounds {nz zone : Nat} {ps : List Player} (hz : zone ≤ 2)
    (hnz : 2 ≤ nz) {pl : Placement} (h : pl ∈ layoutZone nz zone ps) :
    0 ≤ pl.x ∧ pl.x ≤ 1 ∧ 0 ≤ pl.y ∧ pl.y ≤ 1 := by
  obtain ⟨i, p, hik, hpl⟩ := layoutZone_mem h
  obtain ⟨hx1, hx2⟩ := x_raw_bounds i ps.length hik
  obtain ⟨hy1, hy2⟩ := y_raw_bounds nz zone hz hnz
  have hx := round2_mem_unit (by linarith) (by linarith)
    (q := 1 / 2 + ((i : ℚ) - ((ps.length : ℚ) - 1) / 2) *
      ((2 / 5) / ((max (ps.length - 1) 1 : Nat) : ℚ)))
  have hy := round2_mem_unit hy1 hy2
  rw [hpl]
  exact ⟨hx.1, hx.2, hy.1, hy.2⟩

end Lineups

namespace Lineups

/-- The row height of every placement of a laid-out zone is the
rounded zone row formula. -/
theorem layoutZone_y {nz zone : Nat} {ps : List Player} {pl : Placement}
    (h : pl ∈ layoutZone nz zone ps) :
    pl.y = round2 (1 - ((zone : ℚ) + 1) / ((nz : ℚ) + 1)) := by
  obtain ⟨i, p, hik, hpl⟩ := layoutZone_mem h
  rw [hpl]
  rfl

/-- The zone count of the source is always 2 or 3. -/
theorem num_zones_ge_two (n : Nat) : 2 ≤ num_zones n := by
  unfold num_zones
  split <;> omega

/-- C9: every placement returned by the role assigner has coordinates
inside the unit square: the goalkeeper sits at (0.5, 1.0) and every
zone row and within-row offset stays within bounds. -/
theorem C9_coordinates_in_unit_square (team : List Player) (ps : List Placement)
    (h : generate_positions team = some ps) :
    ∀ pl ∈ ps, 0 ≤ pl.x ∧ pl.x ≤ 1 ∧ 0 ≤ pl.y ∧ pl.y ≤ 1 := by
  cases team with
  | nil => simp [generate_positions] at h
  | cons t ts =>
    have hps := Option.some.inj h
    subst hps
    intro pl hpl
    have hnz : 2 ≤ num_zones (t :: ts).length := num_zones_ge_two _
    rcases List.mem_cons.mp hpl with heq | hmem
    · rw [heq]
      norm_num
    · rcases List.mem_append.mp hmem with h01 | h2
      · rcases List.mem_append.mp h01 with h0 | h1
        · exact layoutZone_coord_bounds (by omega) hnz h0
        · exact layoutZone_coord_bounds (by omega) hnz h1
      · exact layoutZone_coord_bounds (by omega) hnz h2

/-- C9 witness: the theorem applied to a concrete one-player team and
its computed placement list. -/
theorem C9_witness :
    0 ≤ ({ uid := some 2, name := "weak", x := 1 / 2, y := 1 } : Placement).x ∧
    ({ uid := some 2, name := "weak", x := 1 / 2, y := 1 } : Placement).x ≤ 1 ∧
    0 ≤ ({ uid := some 2, name := "weak", x := 1 / 2, y := 1 } : Placement).y ∧
    ({ uid := some 2, name := "weak", x := 1 / 2, y := 1 } : Placement).y ≤ 1 :=
  C9_coordinates_in_unit_square [pWeak] _ (generate_positions_single pWeak) _
    (List.mem_singleton.mpr rfl)

end Lineups

namespace Lineups

/-- Rounded row height of the defense row in the two-zone layout. -/
theorem round2_eval_2_3 : round2 (2 / 3 : ℚ) = 67 / 100 := by
  unfold round2
  rw [round_eq]
  rw [show (100 : ℚ) * (2 / 3) + 1 / 2 = 403 / 6 by norm_num]
  rw [show ⌊(403 : ℚ) / 6⌋ = 67 by rw [Int.floor_eq_iff]; norm_num]
  norm_num

/-- Rounded row height of the midfield-index row in the two-zone
layout. -/
theorem round2_eval_1_3 : round2 (1 / 3 : ℚ) = 33 / 100 := by
  unfold round2
  rw [round_eq]
  rw [show (100 : ℚ) * (1 / 3) + 1 / 2 = 203 / 6 by norm_num]
  rw [show ⌊(203 : ℚ) / 6⌋ = 33 by rw [Int.floor_eq_iff]; norm_num]
  norm_num

/-- Rounded row height of the attack-index row in the two-zone
layout. -/
theorem round2_eval_zero : round2 (0 : ℚ) = 0 := by
  unfold round2
  rw [round_eq]
  rw [show (100 : ℚ) * 0 + 1 / 2 = 1 / 2 by norm_num]
  rw [show ⌊(1 : ℚ) / 2⌋ = 0 by rw [Int.floor_eq_iff]; norm_num]
  norm_num

/-- Rounded row height of the defense row in the three-zone layout. -/
theorem round2_eval_3_4 : round2 (3 / 4 : ℚ) = 3 / 4 := by
  unfold round2
  rw [round_eq]
  rw [show (100 : ℚ) * (3 / 4) + 1 / 2 = 151 / 2 by norm_num]
  rw [show ⌊(151 : ℚ) / 2⌋ = 75 by rw [Int.floor_eq_iff]; norm_num]
  norm_num

/-- Rounded row height of the midfield row in the three-zone layout. -/
theorem round2_eval_1_2 : round2 (1 / 2 : ℚ) = 1 / 2 := by
  unfold round2
  rw [round_eq]
  rw [show (100 : ℚ) * (1 / 2) + 1 / 2 = 101 / 2 by norm_num]
  rw [show ⌊(101 : ℚ) / 2⌋ = 50 by rw [Int.floor_eq_iff]; norm_num]
  norm_num

/-- Rounded row height of the attack row in the three-zone layout. -/
theorem round2_eval_1_4 : round2 (1 / 4 : ℚ) = 1 / 4 := by
  unfold round2
  rw [round_eq]
  rw [show (100 : ℚ) * (1 / 4) + 1 / 2 = 51 / 2 by norm_num]
  rw [show ⌊(51 : ℚ) / 2⌋ = 25 by rw [Int.floor_eq_iff]; norm_num]
  norm_num

/-- C8 amended: the zone count is chosen from the total team size
including the goalkeeper, not from the remaining team size: fewer than
six players in total gives the two-zone row heights 0.67 and 0.33
(plus the row 0 that the outlier pass can still populate through zone
index 2, and the goalkeeper at 1), six or more gives the three-zone
row heights 0.75, 0.5 and 0.25. -/
theorem C8_amended_zone_rows (team : List Player) (ps : List Placement)
    (h : generate_positions team = some ps) :
    (team.length < 6 → ∀ pl ∈ ps, pl.y ∈ [(1 : ℚ), 67 / 100, 33 / 100, 0]) ∧
    (6 ≤ team.length → ∀ pl ∈ ps, pl.y ∈ [(1 : ℚ), 3 / 4, 1 / 2, 1 / 4]) := by
  cases team with
  | nil => simp [generate_positions] at h
  | cons t ts =>
    have hps := Option.some.inj h
    subst hps
    constructor
    · intro hlen pl hpl
      have hnz : num_zones (t :: ts).length = 2 := by
        unfold num_zones
        rw [if_pos hlen]
      rcases List.mem_cons.mp hpl with heq | hmem
      · rw [heq]
        simp
      · rcases List.mem_append.mp hmem with h01 | h2
        · rcases List.mem_append.mp h01 with h0 | h1
          · have hy := layoutZone_y h0
            rw [hnz] at hy
            norm_num [round2_eval_2_3] at hy
            simp [hy]
          · have hy := layoutZone_y h1
            rw [hnz] at hy
            norm_num [round2_eval_1_3] at hy
            simp [hy]
        · have hy := layoutZone_y h2
          rw [hnz] at hy
          norm_num [round2_eval_zero] at hy
          simp [hy]
    · intro hlen pl hpl
      have hnz : num_zones (t :: ts).length = 3 := by
        unfold num_zones
        rw [if_neg (by omega)]
      rcases List.mem_cons.mp hpl with heq | hmem
      · rw [heq]
        simp
      · rcases List.mem_append.mp hmem with h01 | h2
        · rcases List.mem_append.mp h01 with h0 | h1
          · have hy := layoutZone_y h0
            rw [hnz] at hy
            norm_num [round2_eval_3_4] at hy
            simp [hy]
          · have hy := layoutZone_y h1
            rw [hnz] at hy
            norm_num [round2_eval_1_2] at hy
            simp [hy]
        · have hy := layoutZone_y h2
          rw [hnz] at hy
          norm_num [round2_eval_1_4] at hy
          simp [hy]

/-- C8 witness: the amended statement applied to a concrete one-player
team, whose total size is below six. -/
theorem C8_witness :
    ({ uid := some 1, name := "strong", x := 1 / 2, y := 1 } : Placement).y ∈
      [(1 : ℚ), 67 / 100, 33 / 100, 0] :=
  (C8_amended_zone_rows [pStrong] _ (generate_positions_single pStrong)).1 (by decide) _
    (List.mem_singleton.mpr rfl)

end Lineups

namespace Lineups

/-- C8 counterexample: for a team of six players the remaining team
size after removing the goalkeeper is five, which is below six, yet
the assigner lays the outfield players out in the three-zone rows
0.75, 0.5 and 0.25 (two zones would give the rows 0.67 and 0.33): the
zone count is chosen from the total team size, not from the remaining
size the claim states. -/
theorem C8_counterexample :
    team6.length - 1 < 6 ∧
    (generate_positions team6).map (fun l => l.map Placement.y) =
      some [1, 3 / 4, 3 / 4, 1 / 2, 1 / 2, 1 / 4] := by
  constructor
  · decide
  · norm_num [team6, generate_positions, assignZones, minBy, gkKey, lexLtb, num_zones,
      zone_limits, sortDescBy, insertDescBy, outlierStep, midfieldStep, fillZones, fillZone,
      failsafeStep, layoutZone, ZState.push, ZState.zone, List.range_succ, List.enum,
      List.enumFrom, round2_eval_3_4, round2_eval_1_2, round2_eval_1_4]

end Lineups

namespace Lineups

/-! Supporting development for the no-dropped-player invariant: when
all uids of a team are pairwise distinct, the assigner places every
player exactly once.  This isolates the uid collision of the C1 defect
as the only way the source can drop a player. -/

/-- Appending one element to the first of two concatenated lists is a
permutation of appending it at the end. -/
theorem append_singleton_perm {α : Type} (A B : List α) (p : α) :
    ((A ++ [p]) ++ B).Perm ((A ++ B) ++ [p]) := by
  have h1 : (A ++ [p]) ++ B = A ++ ([p] ++ B) := by simp
  have h2 : (A ++ B) ++ [p] = A ++ (B ++ [p]) := by simp
  rw [h1, h2]
  exact List.Perm.append_left A List.perm_append_comm

/-- A push appends exactly one uid to the assigned list. -/
theorem ZState.push_assigned : ∀ (s : ZState) (z : Nat) (p : Player),
    (s.push z p).assigned = s.assigned ++ [p.uid]
  | _, 0, _ => rfl
  | _, 1, _ => rfl
  | _, _ + 2, _ => rfl

/-- A push appends exactly one player to the zone concatenation, up to
permutation. -/
theorem ZState.push_zcat_perm : ∀ (s : ZState) (z : Nat) (p : Player),
    ((s.push z p).zcat).Perm (s.zcat ++ [p])
  | s, 0, p => by
    simp only [ZState.push, ZState.zcat]
    refine ((append_singleton_perm s.z0 s.z1 p).append_right s.z2).trans ?_
    exact append_singleton_perm (s.z0 ++ s.z1) s.z2 p
  | s, 1, p => by
    simp only [ZState.push, ZState.zcat]
    rw [← List.append_assoc]
    exact append_singleton_perm (s.z0 ++ s.z1) s.z2 p
  | s, _ + 2, p => by
    simp only [ZState.push, ZState.zcat]
    rw [← List.append_assoc]

/-- A push appends the player to the pushed zone. -/
theorem ZState.push_zone_self : ∀ (s : ZState) (z : Nat) (p : Player),
    (s.push z p).zone z = s.zone z ++ [p]
  | _, 0, _ => rfl
  | _, 1, _ => rfl
  | _, _ + 2, _ => rfl

/-- A push leaves the other zones unchanged, for the zone indices the
source uses. -/
theorem ZState.push_zone_ne (s : ZState) (z j : Nat) (p : Player) (hz : z ≤ 2) (hj : j ≤ 2)
    (hne : j ≠ z) : (s.push z p).zone j = s.zone j := by
  interval_cases z <;> interval_cases j <;> first | omega | rfl

end Lineups

namespace Lineups

/-- The outlier step either leaves the state alone or pushes the
player, and only pushes players whose uid is not yet assigned. -/
theorem outlierStep_shape (lim : Nat → Nat) (s : ZState) (p : Player) :
    outlierStep lim s p = s ∨
      (p.uid ∉ s.assigned ∧ ∃ z, z ≤ 2 ∧ outlierStep lim s p = s.push z p) := by
  unfold outlierStep
  split
  case isTrue h =>
    split
    · exact Or.inr ⟨h.2, 2, by omega, rfl⟩
    · split
      · exact Or.inr ⟨h.2, 0, by omega, rfl⟩
      · exact Or.inl rfl
  case isFalse h => exact Or.inl rfl

/-- The midfield step either leaves the state alone or pushes the
player, and only pushes players whose uid is not yet assigned. -/
theorem midfieldStep_shape (lim : Nat → Nat) (s : ZState) (p : Player) :
    midfieldStep lim s p = s ∨
      (p.uid ∉ s.assigned ∧ ∃ z, z ≤ 2 ∧ midfieldStep lim s p = s.push z p) := by
  unfold midfieldStep
  split
  case isTrue h => exact Or.inr ⟨h.1, 1, by omega, rfl⟩
  case isFalse h => exact Or.inl rfl

/-- Invariant of the outlier and midfield passes: the assigned list is
a permutation of the uids of the zone players, it has no duplicates,
and every zone player came from the candidate pool. -/
theorem zstate_fold_inv (outf : List Player) (f : ZState → Player → ZState)
    (hf : ∀ s p, f s p = s ∨ (p.uid ∉ s.assigned ∧ ∃ z, z ≤ 2 ∧ f s p = s.push z p)) :
    ∀ (l : List Player) (s : ZState),
      (∀ p ∈ l, p ∈ outf) →
      ((s.zcat.map Player.uid).Perm s.assigned) → s.assigned.Nodup →
      (∀ p ∈ s.zcat, p ∈ outf) →
      ((l.foldl f s).zcat.map Player.uid).Perm (l.foldl f s).assigned ∧
      (l.foldl f s).assigned.Nodup ∧
      (∀ p ∈ (l.foldl f s).zcat, p ∈ outf) := by
  intro l
  induction l with
  | nil =>
    intro s _ h1 h2 h3
    exact ⟨h1, h2, h3⟩
  | cons p rest ih =>
    intro s hl h1 h2 h3
    rw [List.foldl_cons]
    have hrest : ∀ q ∈ rest, q ∈ outf := fun q hq => hl q (List.mem_cons_of_mem p hq)
    rcases hf s p with heq | ⟨hun, z, hz, heq⟩
    · rw [heq]
      exact ih s hrest h1 h2 h3
    · rw [heq]
      apply ih (s.push z p) hrest
      · rw [ZState.push_assigned]
        refine ((ZState.push_zcat_perm s z p).map Player.uid).trans ?_
        rw [List.map_append]
        exact h1.append_right _
      · rw [ZState.push_assigned]
        rw [List.nodup_append]
        exact ⟨h2, List.nodup_singleton _, by
          intro a ha hb
          rw [List.mem_singleton] at hb
          subst hb
          exact hun ha⟩
      · intro q hq
        have hmem := (ZState.push_zcat_perm s z p).mem_iff.mp hq
        rw [List.mem_append] at hmem
        rcases hmem with hq2 | hq2
        · exact h3 q hq2
        · rw [List.mem_singleton] at hq2
          subst hq2
          exact hl q (List.mem_cons_self q rest)

end Lineups

namespace Lineups

/-- The even-distribution loop moves players from the remaining list
into the zone: the total content is preserved up to permutation. -/
theorem fillZone_perm (lim : Nat → Nat) (zone : Nat) :
    ∀ (l : List Player) (s : ZState),
      ((fillZone lim zone s l).1.zcat ++ (fillZone lim zone s l).2).Perm (s.zcat ++ l) := by
  intro l
  induction l with
  | nil =>
    intro s
    rw [fillZone]
  | cons p rest ih =>
    intro s
    rw [fillZone]
    split
    · refine (ih (s.push zone p)).trans ?_
      refine ((ZState.push_zcat_perm s zone p).append_right rest).trans ?_
      rw [List.append_assoc]
      exact List.Perm.refl _
    · exact List.Perm.refl _

/-- The even-distribution loop never shrinks a zone. -/
theorem fillZone_mono (lim : Nat → Nat) (zone : Nat) (hz : zone ≤ 2) (j : Nat) (hj : j ≤ 2) :
    ∀ (l : List Player) (s : ZState),
      (s.zone j).length ≤ ((fillZone lim zone s l).1.zone j).length := by
  intro l
  induction l with
  | nil =>
    intro s
    rw [fillZone]
  | cons p rest ih =>
    intro s
    rw [fillZone]
    split
    · refine le_trans ?_ (ih (s.push zone p))
      by_cases hjz : j = zone
      · subst hjz
        rw [ZState.push_zone_self]
        simp
      · rw [ZState.push_zone_ne s zone j p hz hj hjz]
    · exact le_refl _

/-- If the even-distribution loop stops with players left over, the
zone reached its capacity. -/
theorem fillZone_full (lim : Nat → Nat) (zone : Nat) :
    ∀ (l : List Player) (s : ZState),
      (fillZone lim zone s l).2 ≠ [] →
      lim zone ≤ ((fillZone lim zone s l).1.zone zone).length := by
  intro l
  induction l with
  | nil =>
    intro s h
    rw [fillZone] at h
    exact absurd rfl h
  | cons p rest ih =>
    intro s h
    rw [fillZone] at h ⊢
    split at h
    case isTrue hc =>
      rw [if_pos hc]
      exact ih (s.push zone p) h
    case isFalse hc =>
      rw [if_neg hc]
      dsimp only
      omega

/-- The even-distribution fold over a list of zone indices keeps the
state and remaining players stable once the remaining list is empty. -/
theorem fillFold_nil (lim : Nat → Nat) :
    ∀ (zs : List Nat) (s : ZState),
      zs.foldl (fun acc zone => fillZone lim zone acc.1 acc.2) (s, []) = (s, []) := by
  intro zs
  induction zs with
  | nil => intro s; rfl
  | cons z zs ih =>
    intro s
    rw [List.foldl_cons]
    rw [show fillZone lim z s [] = (s, []) from by rw [fillZone]]
    exact ih s

/-- The even-distribution fold never shrinks a zone. -/
theorem fillFold_mono (lim : Nat → Nat) (j : Nat) (hj : j ≤ 2) :
    ∀ (zs : List Nat) (s : ZState) (rem : List Player), (∀ z ∈ zs, z ≤ 2) →
      (s.zone j).length ≤
        ((zs.foldl (fun acc zone => fillZone lim zone acc.1 acc.2) (s, rem)).1.zone j).length := by
  intro zs
  induction zs with
  | nil =>
    intro s rem _
    exact le_refl _
  | cons z zs ih =>
    intro s rem hzs
    rw [List.foldl_cons]
    refine le_trans (fillZone_mono lim z (hzs z (List.mem_cons_self z zs)) j hj rem s) ?_
    exact ih _ _ (fun w hw => hzs w (List.mem_cons_of_mem z hw))

/-- Content preservation and fullness of the even-distribution fold:
the zone contents plus leftovers are a permutation of the incoming
state plus remaining players, and if players are left over at the end
then every visited zone is at capacity. -/
theorem fillFold_spec (lim : Nat → Nat) :
    ∀ (zs : List Nat) (s : ZState) (rem : List Player), (∀ z ∈ zs, z ≤ 2) →
      (((zs.foldl (fun acc zone => fillZone lim zone acc.1 acc.2) (s, rem)).1.zcat ++
        (zs.foldl (fun acc zone => fillZone lim zone acc.1 acc.2) (s, rem)).2).Perm
        (s.zcat ++ rem)) ∧
      ((zs.foldl (fun acc zone => fillZone lim zone acc.1 acc.2) (s, rem)).2 ≠ [] →
        ∀ z ∈ zs,
          lim z ≤
            ((zs.foldl (fun acc zone => fillZone lim zone acc.1 acc.2) (s, rem)).1.zone z).length) := by
  intro zs
  induction zs with
  | nil =>
    intro s rem _
    exact ⟨List.Perm.refl _, fun _ z hz => absurd hz (List.not_mem_nil z)⟩
  | cons z0 zs ih =>
    intro s rem hzs
    have hz0 : z0 ≤ 2 := hzs z0 (List.mem_cons_self z0 zs)
    have hzs2 : ∀ w ∈ zs, w ≤ 2 := fun w hw => hzs w (List.mem_cons_of_mem z0 hw)
    rcases hpair : fillZone lim z0 s rem with ⟨s1, rem1⟩
    have hfold : (z0 :: zs).foldl (fun acc zone => fillZone lim zone acc.1 acc.2) (s, rem) =
        zs.foldl (fun acc zone => fillZone lim zone acc.1 acc.2) (s1, rem1) := by
      rw [List.foldl_cons]
      dsimp only
      rw [hpair]
    rw [hfold]
    obtain ⟨ihp, ihf⟩ := ih s1 rem1 hzs2
    have hfzp : (s1.zcat ++ rem1).Perm (s.zcat ++ rem) := by
      have hp := fillZone_perm lim z0 rem s
      rw [hpair] at hp
      exact hp
    constructor
    · exact ihp.trans hfzp
    · intro hne z hz
      rcases List.mem_cons.mp hz with heq | hmem
      · subst heq
        have hrem1ne : rem1 ≠ [] := by
          intro hnil
          subst hnil
          rw [fillFold_nil lim zs s1] at hne
          exact hne rfl
        have hf2 : (fillZone lim z s rem).2 ≠ [] := by
          rw [hpair]
          exact hrem1ne
        have h1 := fillZone_full lim z rem s hf2
        rw [hpair] at h1
        exact le_trans h1 (fillFold_mono lim z hz0 zs s1 rem1 hzs2)
      · exact ihf hne z hmem

end Lineups

namespace Lineups

/-- Mapping over the enumeration while using only the element is the
same as mapping over the list. -/
theorem enum_map_comp_snd {α β : Type} (f : α → β) (l : List α) :
    l.enum.map (fun ip => f ip.2) = l.map f := by
  calc l.enum.map (fun ip => f ip.2) = (l.enum.map Prod.snd).map f := by
        rw [List.map_map]
        rfl
    _ = l.map f := by rw [List.enum_map_snd]

/-- The layout of one zone has one placement per player. -/
theorem layoutZone_length (nz zone : Nat) (ps : List Player) :
    (layoutZone nz zone ps).length = ps.length := by
  unfold layoutZone
  simp

/-- The layout of one zone keeps the uids of the zone players, in
order. -/
theorem layoutZone_uids (nz zone : Nat) (ps : List Player) :
    (layoutZone nz zone ps).map Placement.uid = ps.map Player.uid := by
  unfold layoutZone
  rw [List.map_map]
  exact enum_map_comp_snd (fun p => p.uid) ps

/-- The per-zone capacities of the source sum to the outfield size. -/
theorem zone_limits_sum (n nz : Nat) (hnz : nz = 2 ∨ nz = 3) :
    (if nz = 2 then
      zone_limits (n / nz) (n % nz) 0 + zone_limits (n / nz) (n % nz) 1
    else
      zone_limits (n / nz) (n % nz) 0 + zone_limits (n / nz) (n % nz) 1 +
        zone_limits (n / nz) (n % nz) 2) = n := by
  rcases hnz with h | h <;> subst h <;> unfold zone_limits <;> split_ifs <;> omega

end Lineups

namespace Lineups

/-- The zone count of the source is 2 or 3. -/
theorem num_zones_cases (n : Nat) : num_zones n = 2 ∨ num_zones n = 3 := by
  unfold num_zones
  split
  · exact Or.inl rfl
  · exact Or.inr rfl

/-- When the uids of a non-empty team are pairwise distinct, the role
assigner returns exactly one placement per player and preserves the
uid multiset: the pass chain of the source drops a player only when
two players share a uid (the C1 defect). -/
theorem generate_positions_complete (t : Player) (ts : List Player)
    (hnodup : ((t :: ts).map Player.uid).Nodup) :
    ∃ ps, generate_positions (t :: ts) = some ps ∧
      ps.length = (t :: ts).length ∧
      (ps.map Placement.uid).Perm ((t :: ts).map Player.uid) := by
  set gk := minBy gkKey t ts with hgk
  set outfield := (t :: ts).filter (fun p => decide (p.uid ≠ gk.uid)) with houtf
  set nz := num_zones (t :: ts).length with hnzdef
  set base := ((t :: ts).length - 1) / nz with hbase
  set extra := ((t :: ts).length - 1) % nz with hextra
  set lim := zone_limits base extra with hlim
  set s1 := (sortDescBy (fun p => (((p.attack - p.defense).natAbs : ℚ))) outfield).foldl
    (outlierStep lim) ⟨[], [], [], []⟩ with hs1
  set s2 := (sortDescBy
    (fun p => (p.athleticism : ℚ) + ((p.attack : ℚ) + (p.defense : ℚ)) / 2) outfield).foldl
    (midfieldStep lim) s1 with hs2
  set remaining := outfield.filter (fun p => decide (p.uid ∉ s2.assigned)) with hrem
  set fr := fillZones lim nz s2 remaining with hfr
  set s4 := fr.2.foldl (failsafeStep lim nz) fr.1 with hs4
  have hAZ : assignZones (t :: ts) gk = s4 := rfl
  have hgen : generate_positions (t :: ts) =
      some ({ uid := gk.uid, name := gk.name, x := 1 / 2, y := 1 } ::
        (layoutZone nz 0 s4.z0 ++ layoutZone nz 1 s4.z1 ++ layoutZone nz 2 s4.z2)) := rfl
  -- basic structure of the team
  have hteam_nd : (t :: ts).Nodup := List.Nodup.of_map Player.uid hnodup
  have hinj := List.inj_on_of_nodup_map hnodup
  have hgkmem : gk ∈ t :: ts := minBy_mem gkKey ts t
  have houtsub : outfield.Sublist (t :: ts) := List.filter_sublist _
  have houtnd : outfield.Nodup := hteam_nd.sublist houtsub
  have houtuid_nd : (outfield.map Player.uid).Nodup := hnodup.sublist (houtsub.map Player.uid)
  have hteam_perm : (t :: ts).Perm (gk :: outfield) := by
    have herase := List.perm_cons_erase hgkmem
    have herase_eq : (t :: ts).erase gk = (t :: ts).filter (fun p => p != gk) :=
      hteam_nd.erase_eq_filter gk
    have hfeq : (t :: ts).filter (fun p => p != gk) = outfield := by
      rw [houtf]
      apply List.filter_congr
      intro x hx
      by_cases hxe : x = gk
      · subst hxe
        simp
      · have huid : x.uid ≠ gk.uid := fun h => hxe (hinj hx hgkmem h)
        simp [hxe, huid]
    rw [herase_eq, hfeq] at herase
    exact herase
  have houtlen : outfield.length + 1 = (t :: ts).length := by
    have hlen := hteam_perm.length_eq
    simp only [List.length_cons] at hlen ⊢
    omega
  -- invariants after the outlier and midfield passes
  have hsort1 : ∀ p ∈ sortDescBy (fun p => (((p.attack - p.defense).natAbs : ℚ))) outfield,
      p ∈ outfield := fun p hp => (sortDescBy_perm _ outfield).subset hp
  have hsort2 : ∀ p ∈ sortDescBy
      (fun p => (p.athleticism : ℚ) + ((p.attack : ℚ) + (p.defense : ℚ)) / 2) outfield,
      p ∈ outfield := fun p hp => (sortDescBy_perm _ outfield).subset hp
  have hJ1 := zstate_fold_inv outfield (outlierStep lim) (outlierStep_shape lim)
    (sortDescBy (fun p => (((p.attack - p.defense).natAbs : ℚ))) outfield)
    ⟨[], [], [], []⟩ hsort1 (List.Perm.refl _) List.nodup_nil (by intro p hp; cases hp)
  have hJ2 := zstate_fold_inv outfield (midfieldStep lim) (midfieldStep_shape lim)
    (sortDescBy (fun p => (p.athleticism : ℚ) + ((p.attack : ℚ) + (p.defense : ℚ)) / 2) outfield)
    s1 hsort2 hJ1.1 hJ1.2.1 hJ1.2.2
  obtain ⟨hP, hND, hM⟩ := hJ2
  rw [← hs2] at hP hND hM
  -- the zone contents and the remaining players partition the outfield
  have hzcat_nd : (s2.zcat.map Player.uid).Nodup := (hP.nodup_iff).mpr hND
  have hzcat_players_nd : s2.zcat.Nodup := List.Nodup.of_map Player.uid hzcat_nd
  have hmemiff : ∀ p ∈ outfield, (p ∈ s2.zcat ↔ p.uid ∈ s2.assigned) := by
    intro p hp
    constructor
    · intro hz
      exact hP.mem_iff.mp (List.mem_map_of_mem Player.uid hz)
    · intro ha
      have hx : p.uid ∈ s2.zcat.map Player.uid := hP.mem_iff.mpr ha
      obtain ⟨q, hq, hquid⟩ := List.mem_map.mp hx
      have hqteam : q ∈ t :: ts := List.mem_of_mem_filter (hM q hq)
      have hpteam : p ∈ t :: ts := List.mem_of_mem_filter hp
      have : q = p := hinj hqteam hpteam hquid
      rw [← this]
      exact hq
  have hpart : (outfield.filter (fun p => decide (p.uid ∈ s2.assigned)) ++ remaining).Perm
      outfield := by
    have hfa := List.filter_append_perm (fun p => decide (p.uid ∈ s2.assigned)) outfield
    have hcong : outfield.filter (fun x => !(decide (x.uid ∈ s2.assigned))) = remaining := by
      rw [hrem]
      apply List.filter_congr
      intro x _
      simp [decide_not]
    rw [hcong] at hfa
    exact hfa
  have hinz : (outfield.filter (fun p => decide (p.uid ∈ s2.assigned))).Perm s2.zcat := by
    apply List.Subperm.antisymm
    · apply List.subperm_of_subset (houtnd.filter _)
      intro x hx
      have hxout := List.mem_of_mem_filter hx
      have hxdec := List.of_mem_filter hx
      exact (hmemiff x hxout).mpr (of_decide_eq_true hxdec)
    · apply List.subperm_of_subset hzcat_players_nd
      intro x hx
      have hxout := hM x hx
      refine List.mem_filter.mpr ⟨hxout, ?_⟩
      exact decide_eq_true ((hmemiff x hxout).mp hx)
  have hC : (s2.zcat ++ remaining).Perm outfield :=
    (hinz.symm.append_right remaining).trans hpart
  -- the fill pass consumes all remaining players
  have hnz23 : nz = 2 ∨ nz = 3 := num_zones_cases _
  have hnzle : nz ≤ 3 := by rcases hnz23 with h | h <;> omega
  have hnzge : 2 ≤ nz := by rcases hnz23 with h | h <;> omega
  have hrange : ∀ z ∈ List.range nz, z ≤ 2 := by
    intro z hz
    have := List.mem_range.mp hz
    omega
  have hfr_eq : fr = (List.range nz).foldl
      (fun acc zone => fillZone lim zone acc.1 acc.2) (s2, remaining) := rfl
  obtain ⟨hFp, hFf⟩ := fillFold_spec lim (List.range nz) s2 remaining hrange
  rw [← hfr_eq] at hFp hFf
  have hsum : fr.1.zcat.length + fr.2.length = outfield.length := by
    have h1 := hFp.length_eq
    have h2 := hC.length_eq
    simp only [List.length_append] at h1 h2
    omega
  have hbase2 : base = outfield.length / nz := by
    rw [hbase]
    have : (t :: ts).length - 1 = outfield.length := by omega
    rw [this]
  have hextra2 : extra = outfield.length % nz := by
    rw [hextra]
    have : (t :: ts).length - 1 = outfield.length := by omega
    rw [this]
  have hzcatlen : fr.1.zcat.length = fr.1.z0.length + fr.1.z1.length + fr.1.z2.length := by
    simp only [ZState.zcat, List.length_append]
  have hrem2 : fr.2 = [] := by
    by_contra hne
    have h0 := hFf hne 0 (List.mem_range.mpr (by omega))
    have h1 := hFf hne 1 (List.mem_range.mpr (by omega))
    have hz00 : fr.1.zone 0 = fr.1.z0 := rfl
    have hz11 : fr.1.zone 1 = fr.1.z1 := rfl
    have hz22 : fr.1.zone 2 = fr.1.z2 := rfl
    have hrpos : 1 ≤ fr.2.length := by
      have := List.length_pos.mpr hne
      omega
    rcases hnz23 with hn2 | hn3
    · have hls := zone_limits_sum outfield.length 2 (Or.inl rfl)
      rw [if_pos rfl] at hls
      have hl0 : lim 0 = zone_limits (outfield.length / 2) (outfield.length % 2) 0 := by
        rw [hlim, hbase2, hextra2, hn2]
      have hl1 : lim 1 = zone_limits (outfield.length / 2) (outfield.length % 2) 1 := by
        rw [hlim, hbase2, hextra2, hn2]
      rw [hz00] at h0
      rw [hz11] at h1
      rw [hl0] at h0
      rw [hl1] at h1
      omega
    · have hls := zone_limits_sum outfield.length 3 (Or.inr rfl)
      rw [if_neg (by omega)] at hls
      have h2 := hFf hne 2 (List.mem_range.mpr (by omega))
      have hl0 : lim 0 = zone_limits (outfield.length / 3) (outfield.length % 3) 0 := by
        rw [hlim, hbase2, hextra2, hn3]
      have hl1 : lim 1 = zone_limits (outfield.length / 3) (outfield.length % 3) 1 := by
        rw [hlim, hbase2, hextra2, hn3]
      have hl2 : lim 2 = zone_limits (outfield.length / 3) (outfield.length % 3) 2 := by
        rw [hlim, hbase2, hextra2, hn3]
      rw [hz00, hl0] at h0
      rw [hz11, hl1] at h1
      rw [hz22, hl2] at h2
      omega
  -- the failsafe pass is the identity and the zones hold the outfield
  have hs4eq : s4 = fr.1 := by
    rw [hs4, hrem2]
    rfl
  have hzcat_out : (s4.zcat).Perm outfield := by
    rw [hs4eq]
    have := hFp
    rw [hrem2] at this
    simp only [List.append_nil] at this
    exact this.trans hC
  -- assemble the final placement list
  refine ⟨_, hgen, ?_, ?_⟩
  · simp only [List.length_cons, List.length_append, layoutZone_length]
    have hl := hzcat_out.length_eq
    simp only [ZState.zcat, List.length_append] at hl
    have houtlen2 : outfield.length = ts.length := by
      simp only [List.length_cons] at houtlen
      omega
    omega
  · simp only [List.map_cons, List.map_append, layoutZone_uids]
    have huids : ((s4.z0.map Player.uid ++ s4.z1.map Player.uid) ++ s4.z2.map Player.uid).Perm
        (outfield.map Player.uid) := by
      have h := hzcat_out.map Player.uid
      simp only [ZState.zcat, List.map_append] at h
      exact h
    have hfinal : (gk.uid :: ((s4.z0.map Player.uid ++ s4.z1.map Player.uid) ++
        s4.z2.map Player.uid)).Perm ((t :: ts).map Player.uid) := by
      refine List.Perm.trans (huids.cons gk.uid) ?_
      have h := (hteam_perm.map Player.uid).symm
      simpa using h
    simpa using hfinal

end Lineups
